import Mathlib

/-!
Shallow embedding of the `catalogue` registry library
(`src/catalogue/__init__.py`).

The Global Registry Store (`REGISTRY`, a Python
`defaultdict(dict): Dict[Tuple[str, ...], Dict[int, Any]]`) is modelled as an
insertion-ordered association list from full keys to versioned entry sets,
themselves insertion-ordered association lists from `Int` versions to values.
Python dict assignment updates in place (keeping the original position of the
key) and appends new keys at the end; `dictInsert` below mirrors that, so the
association lists built by the operations always have unique keys and the list
order is Python's dict iteration order.

Key elements are Python objects that may or may not be strings (`_get`
validates them, `_set` does not), so key components are modelled by `PyObj`
with non-string hashables abstracted to a `Nat` tag.

Registered values are an arbitrary type `α`.
-/

/-- A Python object usable as a key component: either a string or some
non-string hashable object (abstracted by a numeric tag). -/
inductive PyObj where
  | str : String → PyObj
  | nonStr : Nat → PyObj
deriving DecidableEq

/-- `isinstance(x, str)` for a key component. -/
def PyObj.isStr : PyObj → Bool
  | .str _ => true
  | .nonStr _ => false

/-- `str(x)`: the string used when a key component is interpolated into a
format string (exact rendering of non-strings is abstracted). -/
def pyStr : PyObj → String
  | .str s => s
  | .nonStr n => toString n

/-- A full key / namespace: Python tuple of key components. -/
abbrev Key := List PyObj

/-- Injection of a list of Python strings into a key. -/
def strKey (l : List String) : Key := l.map PyObj.str

/-- A versioned entry set: Python `Dict[int, Any]` as an insertion-ordered
association list. -/
abbrev Versions (α : Type) := List (Int × α)

/-- The Global Registry Store: Python `Dict[Tuple[str, ...], Dict[int, Any]]`
as an insertion-ordered association list. -/
abbrev Store (α : Type) := List (Key × Versions α)

/-- The exceptions the library can raise. `RegistryError` subclasses
`ValueError`; `keyError` is a raw dict `KeyError`; `indexError` is a raw list
`IndexError`. -/
inductive PyErr where
  | valueError : String → PyErr
  | registryError : String → PyErr
  | keyError : PyErr
  | indexError : PyErr
deriving DecidableEq

/-- Python dict lookup `d.get(k)` on the association-list model: first (and,
for lists built by `dictInsert`, only) binding of `k`. -/
def alookup {κ β : Type} [DecidableEq κ] (k : κ) : List (κ × β) → Option β
  | [] => none
  | p :: t => if p.1 = k then some p.2 else alookup k t

/-- Python dict assignment `d[k] = v`: update in place if present (keeping the
key's position), else append at the end. -/
def ainsert {κ β : Type} [DecidableEq κ] (k : κ) (v : β) : List (κ × β) → List (κ × β)
  | [] => [(k, v)]
  | p :: t => if p.1 = k then (k, v) :: t else p :: ainsert k v t

/-- Python dict deletion `del d[k]` (callers guard presence): drop the first
binding of `k`. -/
def aerase {κ β : Type} [DecidableEq κ] (k : κ) : List (κ × β) → List (κ × β)
  | [] => []
  | p :: t => if p.1 = k then t else p :: aerase k t

/-- Python `max(d.keys())` on a versioned entry set (`none` on an empty dict,
where Python raises `ValueError`). -/
def maxKey {α : Type} : Versions α → Option Int
  | [] => none
  | (v, _) :: t =>
    match maxKey t with
    | none => some v
    | some m => some (max v m)

/-- A rendering of a key for interpolation into error messages (Python's exact
tuple `repr` is abstracted). -/
def keyStr (k : Key) : String := ", ".intercalate (k.map pyStr)

/-- `check_exists(*namespace)`: membership of the full key in the store.
No string validation (the source has none here). -/
def check_exists {α : Type} (s : Store α) (ns : Key) : Bool :=
  (alookup ns s).isSome

/-- `_get(namespace, version=None)`.  Validates that every component is a
string, then requires the key to be present; a `version` of `None`, `-1`, or
one not present in the entry set resolves to `max` of the stored versions
(`ValueError` on an empty set, from Python's `max(())`). -/
def _get {α : Type} (s : Store α) (ns : Key) (version : Option Int) : Except PyErr α :=
  if ¬ (ns.all PyObj.isStr) then
    .error (.valueError ("Invalid namespace. Expected tuple of strings, but got: " ++ keyStr ns))
  else
    match alookup ns s with
    | none => .error (.registryError ("Can\x27t get namespace " ++ keyStr ns ++ " (not in registry)"))
    | some vs =>
      let resolved : Except PyErr Int :=
        match version with
        | none =>
          match maxKey vs with
          | none => .error (.valueError "max() arg is an empty sequence")
          | some m => .ok m
        | some v =>
          if (alookup v vs).isNone ∨ v = -1 then
            match maxKey vs with
            | none => .error (.valueError "max() arg is an empty sequence")
            | some m => .ok m
          else .ok v
      match resolved with
      | .error e => .error e
      | .ok v =>
        match alookup v vs with
        | some x => .ok x
        | none => .error .keyError

/-- `_get_all(namespace)`: every store entry whose full key is component-wise
prefixed by `namespace` (`len(namespace) <= len(keys) and
all(namespace[i] == keys[i] for i in range(len(namespace)))`). -/
def _get_all {α : Type} (s : Store α) (ns : Key) : Store α :=
  s.filter (fun p =>
    decide (ns.length ≤ p.1.length ∧
      ∀ i, i < ns.length → ns.getD i (.str "") = p.1.getD i (.str "")))

/-- `_set(namespace, func, version=None)`: version defaults to `1`;
`REGISTRY[tuple(namespace)][version] = func` on the defaultdict (creates the
versioned entry set when absent).  No string validation (the source has none
here). -/
def _set {α : Type} (s : Store α) (ns : Key) (func : α) (version : Option Int) : Store α :=
  let v := match version with | none => 1 | some v => v
  ainsert ns (ainsert v func ((alookup ns s).getD [])) s

/-- `_remove(namespace, version=None)`: with an explicit version, deletes just
that version from the entry set (raw `KeyError` if absent) and leaves the full
key in the store even when its entry set becomes empty; with no version,
returns the value at the maximum version and deletes the entire full key. -/
def _remove {α : Type} (s : Store α) (ns : Key) (version : Option Int) :
    Except PyErr (α × Store α) :=
  match alookup ns s with
  | none => .error (.registryError ("Can\x27t get namespace " ++ keyStr ns ++ " (not in registry)"))
  | some vs =>
    match version with
    | some v =>
      match alookup v vs with
      | none => .error .keyError
      | some removed => .ok (removed, ainsert ns (aerase v vs) s)
    | none =>
      match maxKey vs with
      | none => .error (.valueError "max() arg is an empty sequence")
      | some m =>
        match alookup m vs with
        | some latest => .ok (latest, aerase ns s)
        | none => .error .keyError

/-- Base-10 value of a digit string, as produced by Python `int(...)`. -/
def digitsVal (cs : List Char) : Int :=
  cs.foldl (fun a c => a * 10 + ((c.toNat : Int) - ('0'.toNat : Int))) 0

/-- `_parse_version(name)`: `re.search(r"\.v[0-9]+$", name)`.  The regex is
anchored at the end, so a match exists exactly when the maximal digit suffix of
`name` is non-empty and preceded by the two characters `.v`; the leftmost such
match splits off that maximal digit suffix.  Implemented by scanning the
reversed character list. -/
def _parse_version (name : String) : String × Int :=
  let r := name.data.reverse
  let rds := r.takeWhile Char.isDigit
  match r.dropWhile Char.isDigit with
  | c1 :: c2 :: pre =>
    if c1 = 'v' ∧ c2 = '.' ∧ rds ≠ [] then (String.mk pre.reverse, digitsVal rds.reverse)
    else (name, 1)
  | _ => (name, 1)

/-- A `Registry` object: the namespace components and the `entry_points`
flag fixed by `__init__`. -/
structure Registry where
  namespc : List String
  entry_points : Bool
deriving DecidableEq

/-- `self.entry_point_namespace = "_".join(namespace)`. -/
def Registry.entry_point_namespace (r : Registry) : String :=
  "_".intercalate r.namespc

/-- `create(*namespace, entry_points=False)`: raises `RegistryError` when a
full key exactly equal to the namespace is registered, else returns a new
`Registry`.  The store is threaded through unchanged: the source only reads
`REGISTRY` (via `check_exists`). -/
def create {α : Type} (s : Store α) (namespc : List String) (entry_points : Bool) :
    Except PyErr Registry × Store α :=
  if check_exists s (strKey namespc) then
    (.error (.registryError ("Namespace already exists: " ++ " -> ".intercalate namespc)), s)
  else
    (.ok ⟨namespc, entry_points⟩, s)

/-- The depth condition of `Registry.get_all`:
`len(self.namespace) == len(keys) - 1 and keys[:-1] == self.namespace`.
Lengths are compared as Python ints (`len(keys) - 1` can be `-1`). -/
def nsDepthMatch (nsS : List String) (k : Key) : Bool :=
  decide ((nsS.length : Int) = (k.length : Int) - 1 ∧ k.dropLast = strKey nsS)

/-- Loop body of `Registry.get_all` over the (snapshot of the) store, carrying
the result dict.  Returns `none` when `list(versions.values())[0]` would raise
`IndexError` (an entry set left empty by `_remove`). -/
def get_all_loop {α : Type} (nsS : List String) :
    Store α → List (String × α) → Option (List (String × α))
  | [], acc => some acc
  | (k, vs) :: rest, acc =>
    if nsDepthMatch nsS k then
      if vs.length > 1 then
        get_all_loop nsS rest
          (vs.foldl (fun d q =>
            ainsert (pyStr (k.getLastD (.str "")) ++ ".v" ++ toString q.1) q.2 d) acc)
      else
        match vs with
        | q :: _ => get_all_loop nsS rest (ainsert (pyStr (k.getLastD (.str ""))) q.2 acc)
        | [] => none
    else get_all_loop nsS rest acc

/-- `Registry.get_all(self)`: entry-point entries first when enabled (`eps` is
the loaded entry-point mapping for this namespace), then every directly
registered leaf exactly one level below `self.namespace`, a multi-version leaf
under `"<name>.v<version>"` keys and a single-version leaf under its bare
name. -/
def Registry.get_all {α : Type} (r : Registry) (eps : List (String × α)) (s : Store α) :
    Option (List (String × α)) :=
  get_all_loop r.namespc s
    (if r.entry_points then eps.foldl (fun d q => ainsert q.1 q.2 d) [] else [])

/-- Python `sorted` on strings (lexicographic by code point). -/
def sortStrings (l : List String) : List String :=
  l.mergeSort (fun a b => decide (a ≤ b))

/-- `", ".join(sorted(keys)) or "none"`: the available-names part of the
`Registry.get` error message (Python's `or` takes `"none"` exactly when the
joined string is empty). -/
def availStr (names : List String) : String :=
  let j := ", ".intercalate (sortStrings names)
  if j = "" then "none" else j

/-- The `"Cant't find ..."` message of `Registry.get`, given the result dict
`d` of `self.get_all()`. -/
def getErrMsg (r : Registry) (bare : String) {α : Type} (d : List (String × α)) : String :=
  "Cant\x27t find \x27" ++ bare ++ "\x27 in registry " ++ " -> ".intercalate r.namespc ++
    ". Available names: " ++ availStr (d.map Prod.fst)

/-- `Registry.get(self, name, *, version=None)`: parse the version out of
`name` when not supplied; consult the entry points first when enabled; then
look up the full key `self.namespace + [name]`, raising `RegistryError` with
the available names when absent.  (The source's final `if version is None:
version = -1` is dead: `version` is always an int at that point.) -/
def Registry.get {α : Type} (r : Registry) (eps : List (String × α)) (s : Store α)
    (name : String) (version : Option Int) : Except PyErr α :=
  let p := match version with | none => _parse_version name | some v => (name, v)
  match (if r.entry_points then alookup p.1 eps else none) with
  | some f => .ok f
  | none =>
    let fullKey := strKey r.namespc ++ [PyObj.str p.1]
    if check_exists s fullKey then
      _get s fullKey (some p.2)
    else
      match Registry.get_all r eps s with
      | none => .error .indexError
      | some d => .error (.registryError (getErrMsg r p.1 d))

/-- `Registry.register(self, name, *, func=None, version=None)`: when
`version` is `None` it is parsed out of `name`; with `func` supplied the
registration happens immediately (`Sum.inl`, returning the value and the new
store), otherwise the `do_registration` closure is returned (`Sum.inr`, a
function from the value and the store at call time). -/
def Registry.register {α : Type} (r : Registry) (name : String) (func : Option α)
    (version : Option Int) (s : Store α) :
    (α × Store α) ⊕ (α → Store α → α × Store α) :=
  let p := match version with | none => _parse_version name | some v => (name, v)
  let do_registration : α → Store α → α × Store α := fun f s' =>
    (f, _set s' (strKey r.namespc ++ [PyObj.str p.1]) f (some p.2))
  match func with
  | some f => Sum.inl (do_registration f s)
  | none => Sum.inr do_registration

/-- The bare exposure name of a store entry in `Registry.get_all`
(`keys[-1]`, rendered as a string). -/
def bareName (k : Key) : String := pyStr (k.getLastD (.str ""))

/-- The version-suffixed exposure name `f"{keys[-1]}.v{version}"` of
`Registry.get_all`. -/
def sfxName (k : Key) (v : Int) : String := bareName k ++ ".v" ++ toString v

/-- Every name a store entry could be exposed under by `Registry.get_all`:
the bare name plus all version-suffixed names. -/
def potNames {α : Type} (p : Key × Versions α) : List String :=
  bareName p.1 :: p.2.map (fun q => sfxName p.1 q.1)

/-- The (name, value) assignments `Registry.get_all` performs for one matching
entry: suffixed pairs when more than one version is stored, the bare pair for
a single version, nothing for an (ill-formed) empty entry set. -/
def exposurePairs {α : Type} (p : Key × Versions α) : List (String × α) :=
  if 1 < p.2.length then p.2.map (fun q => (sfxName p.1 q.1, q.2))
  else
    match p.2 with
    | q :: _ => [(bareName p.1, q.2)]
    | [] => []

/-- One iteration of the `Registry.get_all` loop, as a fold step on the
result dict. -/
def stepEntry {α : Type} (nsS : List String) (acc : List (String × α))
    (p : Key × Versions α) : List (String × α) :=
  if nsDepthMatch nsS p.1 then
    (exposurePairs p).foldl (fun d q => ainsert q.1 q.2 d) acc
  else acc

theorem alookup_ainsert_self {κ β : Type} [DecidableEq κ] (k : κ) (v : β)
    (l : List (κ × β)) : alookup k (ainsert k v l) = some v := by
  induction l with
  | nil => simp [ainsert, alookup]
  | cons p t ih =>
    by_cases h : p.1 = k
    · simp [ainsert, h, alookup]
    · simp [ainsert, h, alookup, ih]

theorem alookup_ainsert_ne {κ β : Type} [DecidableEq κ] {k' k : κ} (h : k' ≠ k) (v : β)
    (l : List (κ × β)) : alookup k' (ainsert k v l) = alookup k' l := by
  have hne : ¬ k = k' := fun he => h he.symm
  induction l with
  | nil => simp [ainsert, alookup, hne]
  | cons p t ih =>
    by_cases hp : p.1 = k
    · subst hp
      simp [ainsert, alookup, hne]
    · simp [ainsert, hp, alookup, ih]

theorem alookup_aerase_ne {κ β : Type} [DecidableEq κ] {k' k : κ} (h : k' ≠ k)
    (l : List (κ × β)) : alookup k' (aerase k l) = alookup k' l := by
  induction l with
  | nil => rfl
  | cons p t ih =>
    by_cases hp : p.1 = k
    · subst hp
      have hne : ¬ p.1 = k' := fun he => h he.symm
      simp [aerase, alookup, hne]
    · simp [aerase, hp, alookup, ih]

theorem alookup_eq_none_of_not_mem {κ β : Type} [DecidableEq κ] {k : κ} {l : List (κ × β)}
    (h : k ∉ l.map Prod.fst) : alookup k l = none := by
  induction l with
  | nil => rfl
  | cons p t ih =>
    simp only [List.map_cons, List.mem_cons, not_or] at h
    have hne : ¬ p.1 = k := fun he => h.1 he.symm
    simp [alookup, hne, ih h.2]

theorem alookup_mem {κ β : Type} [DecidableEq κ] {k : κ} {v : β} {l : List (κ × β)}
    (h : alookup k l = some v) : (k, v) ∈ l := by
  induction l with
  | nil => simp [alookup] at h
  | cons p t ih =>
    obtain ⟨a, b⟩ := p
    by_cases hp : a = k
    · subst hp
      have hbv : b = v := by simpa [alookup] using h
      subst hbv
      exact List.mem_cons_self _ _
    · simp only [alookup, if_neg hp] at h
      exact List.mem_cons_of_mem _ (ih h)

theorem alookup_aerase_self {κ β : Type} [DecidableEq κ] {k : κ} {l : List (κ × β)}
    (hnd : (l.map Prod.fst).Nodup) : alookup k (aerase k l) = none := by
  induction l with
  | nil => rfl
  | cons p t ih =>
    simp only [List.map_cons, List.nodup_cons] at hnd
    by_cases hp : p.1 = k
    · subst hp
      simp only [aerase, if_pos rfl]
      exact alookup_eq_none_of_not_mem hnd.1
    · simp [aerase, hp, alookup, ih hnd.2]

theorem maxKey_ne_none {α : Type} (q : Int × α) (t : Versions α) :
    maxKey (q :: t) ≠ none := by
  cases ht : maxKey t <;> simp [maxKey, ht]

theorem maxKey_cons {α : Type} (q : Int × α) (t : Versions α) :
    maxKey (q :: t) =
      some (match maxKey t with | none => q.1 | some m => max q.1 m) := by
  cases ht : maxKey t <;> simp [maxKey, ht]

theorem maxKey_mem {α : Type} {vs : Versions α} {m : Int} (h : maxKey vs = some m) :
    m ∈ vs.map Prod.fst := by
  induction vs generalizing m with
  | nil => simp [maxKey] at h
  | cons q t ih =>
    rw [maxKey_cons] at h
    simp only [List.map_cons, List.mem_cons]
    cases ht : maxKey t with
    | none =>
      rw [ht] at h
      have : q.1 = m := by injection h
      exact Or.inl this.symm
    | some m' =>
      rw [ht] at h
      have hmm : max q.1 m' = m := by injection h
      rcases max_choice q.1 m' with hc | hc
      · exact Or.inl (by omega)
      · refine Or.inr ?_
        have h2 : m = m' := by omega
        rw [h2]
        exact ih ht

theorem maxKey_le {α : Type} {vs : Versions α} {m : Int} (h : maxKey vs = some m) :
    ∀ q ∈ vs, q.1 ≤ m := by
  induction vs generalizing m with
  | nil => simp
  | cons q t ih =>
    intro p hp
    rw [maxKey_cons] at h
    cases ht : maxKey t with
    | none =>
      rw [ht] at h
      have hq : q.1 = m := by injection h
      have htnil : t = [] := by
        cases t with
        | nil => rfl
        | cons a u => exact absurd ht (maxKey_ne_none a u)
      subst htnil
      rcases List.mem_singleton.mp hp with rfl
      omega
    | some m' =>
      rw [ht] at h
      have hmm : max q.1 m' = m := by injection h
      rcases List.mem_cons.mp hp with heq | hp'
      · have h1 := le_max_left q.1 m'
        have h3 : p.1 = q.1 := by rw [heq]
        omega
      · have h1 := ih ht p hp'
        have h2 := le_max_right q.1 m'
        omega

theorem maxKey_isSome {α : Type} {vs : Versions α} (h : vs ≠ []) :
    ∃ m, maxKey vs = some m := by
  cases vs with
  | nil => exact absurd rfl h
  | cons q t =>
    rw [maxKey_cons]
    exact ⟨_, rfl⟩

theorem maxKey_eq {α : Type} {vs : Versions α} {m : Int} (hmem : m ∈ vs.map Prod.fst)
    (hle : ∀ q ∈ vs, q.1 ≤ m) : maxKey vs = some m := by
  have hne : vs ≠ [] := by
    intro h
    subst h
    simp at hmem
  obtain ⟨m', hm'⟩ := maxKey_isSome hne
  obtain ⟨q, hq, hq1⟩ := List.mem_map.mp hmem
  obtain ⟨p, hp, hp1⟩ := List.mem_map.mp (maxKey_mem hm')
  have h1 : m' ≤ m := hp1 ▸ hle p hp
  have h2 : m ≤ m' := hq1 ▸ maxKey_le hm' q hq
  rw [hm']
  congr 1
  omega

theorem alookup_foldl_ainsert_of_not_mem {κ β : Type} [DecidableEq κ] {k : κ}
    (ps : List (κ × β)) (acc : List (κ × β)) (h : k ∉ ps.map Prod.fst) :
    alookup k (ps.foldl (fun d q => ainsert q.1 q.2 d) acc) = alookup k acc := by
  induction ps generalizing acc with
  | nil => rfl
  | cons q t ih =>
    simp only [List.map_cons, List.mem_cons, not_or] at h
    rw [List.foldl_cons, ih _ h.2, alookup_ainsert_ne h.1 q.2 acc]

theorem alookup_foldl_ainsert_of_mem {κ β : Type} [DecidableEq κ] {k : κ} {v : β}
    (ps : List (κ × β)) (acc : List (κ × β)) (hnd : (ps.map Prod.fst).Nodup)
    (hmem : (k, v) ∈ ps) :
    alookup k (ps.foldl (fun d q => ainsert q.1 q.2 d) acc) = some v := by
  induction ps generalizing acc with
  | nil => simp at hmem
  | cons q t ih =>
    simp only [List.map_cons, List.nodup_cons] at hnd
    rcases List.mem_cons.mp hmem with heq | hmem'
    · have hk1 : k = q.1 := congrArg Prod.fst heq
      have hk' : k ∉ List.map Prod.fst t := by
        rw [hk1]
        exact hnd.1
      rw [List.foldl_cons, alookup_foldl_ainsert_of_not_mem _ _ hk', ← heq]
      exact alookup_ainsert_self k v acc
    · rw [List.foldl_cons]
      exact ih _ hnd.2 hmem'

theorem alookup_foldl_ainsert_eq_some {κ β : Type} [DecidableEq κ] {k : κ} {v : β}
    (ps : List (κ × β)) (acc : List (κ × β))
    (h : alookup k (ps.foldl (fun d q => ainsert q.1 q.2 d) acc) = some v) :
    (k, v) ∈ ps ∨ alookup k acc = some v := by
  induction ps generalizing acc with
  | nil => exact Or.inr h
  | cons q t ih =>
    rw [List.foldl_cons] at h
    rcases ih _ h with hm | hacc
    · exact Or.inl (List.mem_cons_of_mem _ hm)
    · by_cases hk : k = q.1
      · subst hk
        rw [alookup_ainsert_self] at hacc
        obtain ⟨a, b⟩ := q
        cases Option.some.inj hacc
        exact Or.inl (List.mem_cons_self _ _)
      · exact Or.inr (alookup_ainsert_ne hk q.2 acc ▸ hacc)

theorem strKey_all_isStr (l : List String) : (strKey l).all PyObj.isStr = true := by
  induction l with
  | nil => rfl
  | cons a t ih => simp [strKey, PyObj.isStr]

theorem prefixCond_iff (ns k : Key) :
    (ns.length ≤ k.length ∧ ∀ i, i < ns.length → ns.getD i (.str "") = k.getD i (.str "")) ↔
      ns <+: k := by
  induction ns generalizing k with
  | nil => simp [ List.nil_prefix]
  | cons a t ih =>
    cases k with
    | nil => simp [ List.prefix_nil]
    | cons b u =>
      rw [ List.cons_prefix_cons, ← ih u]
      constructor
      · rintro ⟨hlen, hidx⟩
        refine ⟨by simpa using hidx 0 (by simp), by simpa using hlen, ?_⟩
        intro i hi
        simpa using hidx (i + 1) (by simpa using hi)
      · rintro ⟨rfl, hlen, hidx⟩
        refine ⟨by simpa using hlen, ?_⟩
        intro i hi
        cases i with
        | zero => simp
        | succ j => simpa using hidx j (by simpa using hi)

/-- Claim C1: store-level `get` with version `None`, `-1`, or an absent
version resolves to the value at the numerically maximum stored version;
`get` with a present version returns exactly that version's value; `get` on an
absent full key fails with `RegistryError` (NotFound).  `m` is characterized
as the numeric maximum of the stored versions, so the result is independent of
insertion order; versions are positive per the data model. -/
theorem C1_get_version_resolution {α : Type} (s : Store α) (k k' : List String)
    (vs : Versions α) (hk : alookup (strKey k) s = some vs)
    (hpos : ∀ q ∈ vs, 0 < q.1)
    (m : Int) (x : α) (hm : alookup m vs = some x) (hmax : ∀ q ∈ vs, q.1 ≤ m) :
    _get s (strKey k) none = .ok x ∧
    _get s (strKey k) (some (-1)) = .ok x ∧
    (∀ v, alookup v vs = none → _get s (strKey k) (some v) = .ok x) ∧
    (∀ v y, alookup v vs = some y → _get s (strKey k) (some v) = .ok y) ∧
    (alookup (strKey k') s = none → ∀ ver, _get s (strKey k') ver =
      .error (.registryError ("Can\x27t get namespace " ++ keyStr (strKey k') ++
        " (not in registry)"))) := by
  have hall := strKey_all_isStr k
  have hmk : maxKey vs = some m :=
    maxKey_eq (List.mem_map.mpr ⟨(m, x), alookup_mem hm, rfl⟩) hmax
  refine ⟨?_, ?_, ?_, ?_, ?_⟩
  · simp [_get, hall, hk, hmk, hm]
  · simp [_get, hall, hk, hmk, hm]
  · intro v hv
    simp [_get, hall, hk, hv, hmk, hm]
  · intro v y hv
    have hvpos : 0 < v := hpos (v, y) (alookup_mem hv)
    have hvne : ¬ v = -1 := by omega
    simp [_get, hall, hk, hv, hvne]
  · intro habs ver
    simp [_get, strKey_all_isStr k', habs]

theorem C1_witness :
    _get [(strKey ["a", "b"], [(1, 10), (5, 50), (2, 20)])] (strKey ["a", "b"]) none =
      .ok 50 ∧
    _get [(strKey ["a", "b"], [(1, 10), (5, 50), (2, 20)])] (strKey ["a", "b"]) (some (-1)) =
      .ok 50 ∧
    _get [(strKey ["a", "b"], [(1, 10), (5, 50), (2, 20)])] (strKey ["a", "b"]) (some 3) =
      .ok 50 ∧
    _get [(strKey ["a", "b"], [(1, 10), (5, 50), (2, 20)])] (strKey ["a", "b"]) (some 2) =
      .ok 20 ∧
    _get [(strKey ["a", "b"], [(1, 10), (5, 50), (2, 20)])] (strKey ["z"]) none =
      .error (.registryError ("Can\x27t get namespace " ++ keyStr (strKey ["z"]) ++
        " (not in registry)")) := by
  obtain ⟨h1, h2, h3, h4, h5⟩ :=
    C1_get_version_resolution [(strKey ["a", "b"], [(1, 10), (5, 50), (2, 20)])]
      ["a", "b"] ["z"] [(1, 10), (5, 50), (2, 20)] rfl (by decide) 5 50 rfl (by decide)
  exact ⟨h1, h2, h3 3 rfl, h4 2 20 rfl, h5 rfl none⟩

/-- Claim C2 (amended): removing the only version of a full key with an
explicit version does NOT delete the full key — the key remains mapped to an
empty versioned entry set and `check_exists` still returns true (so the
non-emptiness invariant is violated by this operation); removing one of
several versions leaves the key existing with the remaining versions
intact. -/
theorem C2_remove_keeps_empty_key {α : Type} (s : Store α) (k : Key) (vs : Versions α)
    (hk : alookup k s = some vs) :
    (∀ v x, vs = [(v, x)] →
      _remove s k (some v) = .ok (x, ainsert k ([] : Versions α) s) ∧
      check_exists (ainsert k ([] : Versions α) s) k = true) ∧
    (∀ v x, alookup v vs = some x → 1 < vs.length →
      _remove s k (some v) = .ok (x, ainsert k (aerase v vs) s) ∧
      check_exists (ainsert k (aerase v vs) s) k = true ∧
      (∀ w, w ≠ v → alookup w (aerase v vs) = alookup w vs) ∧
      ((vs.map Prod.fst).Nodup → alookup v (aerase v vs) = none)) := by
  constructor
  · rintro v x rfl
    refine ⟨?_, ?_⟩
    · simp [_remove, hk, alookup, aerase]
    · simp [check_exists, alookup_ainsert_self]
  · intro v x hv _
    refine ⟨?_, ?_, ?_, ?_⟩
    · simp [_remove, hk, hv]
    · simp [check_exists, alookup_ainsert_self]
    · intro w hw
      exact alookup_aerase_ne hw vs
    · intro hnd
      exact alookup_aerase_self hnd

theorem C2_counterexample :
    _remove (_set ([] : Store Nat) (strKey ["a", "b"]) 7 (some 1)) (strKey ["a", "b"])
        (some 1) = .ok (7, [(strKey ["a", "b"], [])]) ∧
    check_exists [(strKey ["a", "b"], ([] : Versions Nat))] (strKey ["a", "b"]) = true :=
  ⟨rfl, rfl⟩

theorem C2_witness :
    _remove [(strKey ["x"], [(5, 7)])] (strKey ["x"]) (some 5) =
      .ok (7, ainsert (strKey ["x"]) ([] : Versions Nat) [(strKey ["x"], [(5, 7)])]) ∧
    check_exists (ainsert (strKey ["x"]) ([] : Versions Nat) [(strKey ["x"], [(5, 7)])])
      (strKey ["x"]) = true :=
  (C2_remove_keeps_empty_key [(strKey ["x"], [(5, 7)])] (strKey ["x"]) [(5, 7)] rfl).1
    5 7 rfl

/-- Claim C3: `_get_all` returns exactly the store entries whose full key is
component-wise prefixed by the namespace (reflexive, ordered prefix match over
components — never substring or set matches). -/
theorem C3_get_all_is_prefix_match {α : Type} (s : Store α) (ns : Key)
    (p : Key × Versions α) : p ∈ _get_all s ns ↔ p ∈ s ∧ ns <+: p.1 := by
  unfold _get_all
  rw [ List.mem_filter, decide_eq_true_eq]
  exact and_congr Iff.rfl (prefixCond_iff ns p.1)

/-- Claim C6: `set` followed by `get` at the same full key and the same
(positive, per the data model) version returns the stored value unchanged. -/
theorem C6_set_get_roundtrip {α : Type} (s : Store α) (k : List String) (func : α)
    (v : Int) (hv : 0 < v) :
    _get (_set s (strKey k) func (some v)) (strKey k) (some v) = .ok func := by
  have hall := strKey_all_isStr k
  have hvne : ¬ v = -1 := by omega
  simp [_set, _get, hall, alookup_ainsert_self, hvne]

theorem C6_witness :
    _get (_set ([] : Store Nat) (strKey ["spacy", "arch"]) 42 (some 3)) (strKey ["spacy", "arch"])
      (some 3) = .ok 42 :=
  C6_set_get_roundtrip [] ["spacy", "arch"] 42 3 (by decide)

/-- Claim C7: deferred (decorator-style) registration and immediate
registration are equivalent: `register(name)` returns a function which, applied
to the value with the store in a given state, produces exactly the store that
`register(name, func=value)` would produce from that state, and both return
the value unchanged. -/
theorem C7_deferred_eq_immediate {α : Type} (r : Registry) (name : String)
    (ver : Option Int) (s : Store α) (f : α) :
    ∃ st, Registry.register r name (some f) ver s = Sum.inl (f, st) ∧
      ∃ g, Registry.register r name (none : Option α) ver s = Sum.inr g ∧
        g f s = (f, st) :=
  ⟨_, rfl, _, rfl, rfl⟩

/-- Claim C10: `create` never modifies the store; it succeeds exactly when no
full key equal to the namespace is registered, so creating a second handle for
the same namespace also succeeds; the `NamespaceExists` rejection fires only
for a registered entry at exactly that key. -/
theorem C10_create_reads_only {α : Type} (s : Store α) (ns : List String) (ep : Bool) :
    (create s ns ep).2 = s ∧
    (alookup (strKey ns) s = none →
      (create s ns ep).1 = .ok ⟨ns, ep⟩ ∧
      (create ((create s ns ep).2) ns ep).1 = .ok ⟨ns, ep⟩) ∧
    (∀ vs, alookup (strKey ns) s = some vs →
      (create s ns ep).1 =
        .error (.registryError ("Namespace already exists: " ++ " -> ".intercalate ns))) := by
  refine ⟨?_, ?_, ?_⟩
  · by_cases h : (alookup (strKey ns) s).isSome <;> simp [create, check_exists, h]
  · intro h
    simp [create, check_exists, h]
  · intro vs h
    simp [create, check_exists, h]

theorem C10_witness :
    (create ([] : Store Nat) ["x"] false).1 = .ok ⟨["x"], false⟩ ∧
    (create ((create ([] : Store Nat) ["x"] false).2) ["x"] false).1 = .ok ⟨["x"], false⟩ :=
  (C10_create_reads_only [] ["x"] false).2.1 rfl

theorem str_data_append (a b : String) : (a ++ b).data = a.data ++ b.data := rfl

theorem str_ext {a b : String} (h : a.data = b.data) : a = b := by
  cases a
  cases b
  cases h
  rfl

theorem takeWhile_append_not {p : Char → Bool} (l1 : List Char) (x : Char)
    (l2 : List Char) (h1 : ∀ c ∈ l1, p c = true) (hx : p x = false) :
    (l1 ++ x :: l2).takeWhile p = l1 ∧ (l1 ++ x :: l2).dropWhile p = x :: l2 := by
  induction l1 with
  | nil => simp [List.takeWhile_cons, List.dropWhile_cons, hx]
  | cons c t ih =>
    have hc := h1 c (List.mem_cons_self c t)
    obtain ⟨ih1, ih2⟩ := ih (fun d hd => h1 d (List.mem_cons_of_mem c hd))
    simp [List.takeWhile_cons, List.dropWhile_cons, hc, ih1, ih2]

theorem parse_version_suffix (pre ds : String) (hne : ds.data ≠ [])
    (hdig : ∀ c ∈ ds.data, c.isDigit = true) :
    _parse_version (pre ++ ".v" ++ ds) = (pre, digitsVal ds.data) := by
  have hdata : (pre ++ ".v" ++ ds).data = pre.data ++ ('.' :: 'v' :: ds.data) := by
    rw [str_data_append, str_data_append]
    simp
  have hrev : (pre ++ ".v" ++ ds).data.reverse =
      ds.data.reverse ++ ('v' :: '.' :: pre.data.reverse) := by
    rw [hdata]
    simp
  have hvd : Char.isDigit 'v' = false := rfl
  have hall : ∀ c ∈ ds.data.reverse, Char.isDigit c = true :=
    fun c hc => hdig c (List.mem_reverse.mp hc)
  obtain ⟨htw, hdw⟩ :=
    takeWhile_append_not ds.data.reverse 'v' ('.' :: pre.data.reverse) hall hvd
  simp only [_parse_version]
  rw [hrev, htw, hdw]
  show (if ('v' : Char) = 'v' ∧ ('.' : Char) = '.' ∧ ds.data.reverse ≠ [] then
      (String.mk pre.data.reverse.reverse, digitsVal ds.data.reverse.reverse)
    else (pre ++ ".v" ++ ds, 1)) = (pre, digitsVal ds.data)
  rw [if_pos ⟨rfl, rfl, by simpa using hne⟩]
  simp only [List.reverse_reverse]

theorem parse_version_cases (name : String) :
    _parse_version name = (name, 1) ∨
    ∃ pre ds : List Char, ds ≠ [] ∧ (∀ c ∈ ds, Char.isDigit c = true) ∧
      name.data = pre ++ '.' :: 'v' :: ds ∧
      _parse_version name = (String.mk pre, digitsVal ds) := by
  have hsplit :
      name.data.reverse.takeWhile Char.isDigit ++ name.data.reverse.dropWhile Char.isDigit =
        name.data.reverse := List.takeWhile_append_dropWhile Char.isDigit name.data.reverse
  cases hd : name.data.reverse.dropWhile Char.isDigit with
  | nil =>
    left
    simp only [_parse_version, hd]
  | cons c1 rest =>
    cases rest with
    | nil =>
      left
      simp only [_parse_version, hd]
    | cons c2 pre =>
      by_cases hcond : c1 = 'v' ∧ c2 = '.' ∧ name.data.reverse.takeWhile Char.isDigit ≠ []
      · right
        obtain ⟨hc1, hc2, hne⟩ := hcond
        subst hc1
        subst hc2
        refine ⟨pre.reverse, (name.data.reverse.takeWhile Char.isDigit).reverse,
          by simpa using hne, ?_, ?_, ?_⟩
        · intro c hc
          exact List.mem_takeWhile_imp (List.mem_reverse.mp hc)
        · rw [hd] at hsplit
          have h2 := congrArg List.reverse hsplit.symm
          simpa using h2
        · simp only [_parse_version, hd]
          rw [if_pos ⟨by trivial, by trivial, hne⟩]
      · left
        simp only [_parse_version, hd]
        rw [if_neg hcond]

/-- Claim C5: a name ending in exactly `.v` plus one or more decimal digits
parses into the prefix before that suffix and the digits' base-10 value; any
other name parses to itself with version 1; and an explicitly supplied version
argument disables suffix parsing in `register`, the leaf name being used
verbatim in the full key. -/
theorem C5_version_suffix_rules {α : Type} :
    (∀ pre ds : String, ds.data ≠ [] → (∀ c ∈ ds.data, c.isDigit = true) →
      _parse_version (pre ++ ".v" ++ ds) = (pre, digitsVal ds.data)) ∧
    (∀ name : String,
      (∀ pre ds : String, ds.data ≠ [] → (∀ c ∈ ds.data, c.isDigit = true) →
        name ≠ pre ++ ".v" ++ ds) →
      _parse_version name = (name, 1)) ∧
    (∀ (r : Registry) (name : String) (v : Int) (s : Store α) (f : α),
      Registry.register r name (some f) (some v) s =
        Sum.inl (f, _set s (strKey r.namespc ++ [PyObj.str name]) f (some v))) := by
  refine ⟨parse_version_suffix, ?_, ?_⟩
  · intro name hno
    rcases parse_version_cases name with h | ⟨pre, ds, hne, hdig, hdata, _⟩
    · exact h
    · exfalso
      apply hno (String.mk pre) (String.mk ds) hne hdig
      apply str_ext
      rw [hdata, str_data_append, str_data_append]
      simp
  · intro r name v s f
    rfl

theorem C5_witness :
    _parse_version "foo.v12" = ("foo", 12) ∧
    _parse_version "x" = ("x", 1) ∧
    Registry.register (⟨["ns"], false⟩ : Registry) "foo.v2" (some 5) (some 7)
        ([] : Store Nat) =
      Sum.inl (5, _set ([] : Store Nat) (strKey ["ns", "foo.v2"]) 5 (some 7)) := by
  obtain ⟨h1, h2, h3⟩ := C5_version_suffix_rules (α := Nat)
  refine ⟨?_, ?_, ?_⟩
  · have h := h1 "foo" "12" (by decide) (by decide)
    have e1 : "foo" ++ ".v" ++ "12" = "foo.v12" := by decide
    rw [e1] at h
    rw [h]
    decide
  · refine h2 "x" ?_
    intro pre ds _ _ h
    have hlen := congrArg String.length h
    rw [String.length_append, String.length_append] at hlen
    have e2 : ".v".length = 2 := rfl
    have e3 : "x".length = 1 := rfl
    rw [e2, e3] at hlen
    omega
  · exact h3 _ "foo.v2" 7 [] 5

/-- Claim C9 (amended): only the store-level `get` validates that every key
component is a string (failing with `ValueError`, the InvalidArgument kind);
`set`, `remove`, `exists` and `getAll` perform no string validation — `set`
silently stores a key containing non-string elements, after which `exists`
reports it present, `getAll` returns it, and `remove` succeeds on it. -/
theorem C9_only_get_validates {α : Type} (s : Store α) (ns : Key) (f : α)
    (hbad : ns.all PyObj.isStr = false) :
    (∀ ver, _get s ns ver = .error (.valueError
      ("Invalid namespace. Expected tuple of strings, but got: " ++ keyStr ns))) ∧
    check_exists (_set s ns f (some 1)) ns = true ∧
    (ns, ainsert 1 f ((alookup ns s).getD [])) ∈ _get_all (_set s ns f (some 1)) ns ∧
    (∃ st, _remove (_set s ns f (some 1)) ns (some 1) = .ok (f, st)) := by
  have hset : _set s ns f (some 1) =
      ainsert ns (ainsert 1 f ((alookup ns s).getD [])) s := rfl
  refine ⟨?_, ?_, ?_, ?_⟩
  · intro ver
    unfold _get
    rw [hbad]
    simp
  · simp [check_exists, hset, alookup_ainsert_self]
  · unfold _get_all
    refine List.mem_filter.mpr ⟨?_, ?_⟩
    · rw [hset]
      exact alookup_mem (alookup_ainsert_self ns _ s)
    · simp
  · refine ⟨ainsert ns (aerase 1 (ainsert 1 f ((alookup ns s).getD [])))
      (_set s ns f (some 1)), ?_⟩
    simp only [_remove, hset, alookup_ainsert_self]

theorem C9_counterexample :
    _set ([] : Store Nat) [PyObj.str "a", PyObj.nonStr 0] 5 none =
      [([PyObj.str "a", PyObj.nonStr 0], [(1, 5)])] ∧
    check_exists [([PyObj.str "a", PyObj.nonStr 0], [(1, 5)])]
      [PyObj.str "a", PyObj.nonStr 0] = true ∧
    _remove [([PyObj.str "a", PyObj.nonStr 0], [(1, 5)])] [PyObj.str "a", PyObj.nonStr 0]
        (some 1) = .ok (5, [([PyObj.str "a", PyObj.nonStr 0], [])]) :=
  ⟨rfl, rfl, rfl⟩

theorem C9_witness :
    _get ([] : Store Nat) [PyObj.str "a", PyObj.nonStr 0] none = .error (.valueError
      ("Invalid namespace. Expected tuple of strings, but got: " ++
        keyStr [PyObj.str "a", PyObj.nonStr 0])) ∧
    check_exists (_set ([] : Store Nat) [PyObj.str "a", PyObj.nonStr 0] 5 (some 1))
      [PyObj.str "a", PyObj.nonStr 0] = true := by
  obtain ⟨h1, h2, _, _⟩ :=
    C9_only_get_validates ([] : Store Nat) [PyObj.str "a", PyObj.nonStr 0] 5 rfl
  exact ⟨h1 none, h2⟩

theorem get_all_loop_eq {α : Type} (nsS : List String) (s : Store α)
    (acc : List (String × α))
    (h : ∀ p ∈ s, nsDepthMatch nsS p.1 = true → p.2 ≠ []) :
    get_all_loop nsS s acc = some (s.foldl (stepEntry nsS) acc) := by
  induction s generalizing acc with
  | nil => rfl
  | cons p t ih =>
    obtain ⟨k, vs⟩ := p
    have ht : ∀ q ∈ t, nsDepthMatch nsS q.1 = true → q.2 ≠ [] :=
      fun q hq => h q (List.mem_cons_of_mem _ hq)
    by_cases hm : nsDepthMatch nsS k = true
    · by_cases hlen : 1 < vs.length
      · have hloop : get_all_loop nsS ((k, vs) :: t) acc =
            get_all_loop nsS t (stepEntry nsS acc (k, vs)) := by
          simp [get_all_loop, hm, hlen, stepEntry, exposurePairs, List.foldl_map,
            sfxName, bareName]
        rw [hloop, List.foldl_cons, ih _ ht]
      · cases vs with
        | nil => exact absurd rfl (h (k, []) (List.mem_cons_self _ _) hm)
        | cons q u =>
          have hu : u = [] := by
            cases u with
            | nil => rfl
            | cons a b =>
              exfalso
              apply hlen
              simp only [List.length_cons]
              omega
          subst hu
          have hloop : get_all_loop nsS ((k, [q]) :: t) acc =
              get_all_loop nsS t (stepEntry nsS acc (k, [q])) := by
            simp [get_all_loop, hm, stepEntry, exposurePairs, bareName]
          rw [hloop, List.foldl_cons, ih _ ht]
    · have hloop : get_all_loop nsS ((k, vs) :: t) acc =
          get_all_loop nsS t (stepEntry nsS acc (k, vs)) := by
        simp [get_all_loop, hm, stepEntry]
      rw [hloop, List.foldl_cons, ih _ ht]

theorem exposure_names_sub {α : Type} (p : Key × Versions α) {n : String}
    (hn : n ∈ (exposurePairs p).map Prod.fst) : n ∈ potNames p := by
  unfold exposurePairs at hn
  by_cases h : 1 < p.2.length
  · rw [if_pos h, List.map_map] at hn
    obtain ⟨q, hq, hq1⟩ := List.mem_map.mp hn
    exact List.mem_cons_of_mem _ (List.mem_map.mpr ⟨q, hq, hq1⟩)
  · rw [if_neg h] at hn
    cases hvs : p.2 with
    | nil =>
      rw [hvs] at hn
      simp at hn
    | cons q u =>
      rw [hvs] at hn
      simp at hn
      rw [hn]
      exact List.mem_cons_self _ _

theorem foldl_stepEntry_frame {α : Type} (nsS : List String) (s : Store α)
    (acc : List (String × α)) (n : String)
    (h : ∀ p ∈ s, nsDepthMatch nsS p.1 = true → n ∉ (exposurePairs p).map Prod.fst) :
    alookup n (s.foldl (stepEntry nsS) acc) = alookup n acc := by
  induction s generalizing acc with
  | nil => rfl
  | cons p t ih =>
    rw [List.foldl_cons, ih _ (fun q hq => h q (List.mem_cons_of_mem _ hq))]
    unfold stepEntry
    by_cases hm : nsDepthMatch nsS p.1 = true
    · rw [if_pos hm,
        alookup_foldl_ainsert_of_not_mem _ _ (h p (List.mem_cons_self _ _) hm)]
    · rw [if_neg hm]

theorem foldl_stepEntry_eq_some {α : Type} (nsS : List String) (s : Store α)
    (acc : List (String × α)) {n : String} {v : α}
    (h : alookup n (s.foldl (stepEntry nsS) acc) = some v) :
    (∃ p, p ∈ s ∧ nsDepthMatch nsS p.1 = true ∧ (n, v) ∈ exposurePairs p) ∨
      alookup n acc = some v := by
  induction s generalizing acc with
  | nil => exact Or.inr h
  | cons p t ih =>
    rw [List.foldl_cons] at h
    rcases ih _ h with ⟨q, hq, hqm, hqp⟩ | hacc
    · exact Or.inl ⟨q, List.mem_cons_of_mem _ hq, hqm, hqp⟩
    · unfold stepEntry at hacc
      by_cases hm : nsDepthMatch nsS p.1 = true
      · rw [if_pos hm] at hacc
        rcases alookup_foldl_ainsert_eq_some _ _ hacc with hmem | hacc2
        · exact Or.inl ⟨p, List.mem_cons_self _ _, hm, hmem⟩
        · exact Or.inr hacc2
      · rw [if_neg hm] at hacc
        exact Or.inr hacc

theorem foldl_stepEntry_entry {α : Type} (nsS : List String) (s : Store α)
    (acc : List (String × α)) (p : Key × Versions α)
    (hp : p ∈ s) (hm : nsDepthMatch nsS p.1 = true)
    (hnd : (potNames p).Nodup)
    (hdisj : List.Pairwise (fun a b => nsDepthMatch nsS a.1 = true →
      nsDepthMatch nsS b.1 = true → ∀ n ∈ potNames a, n ∉ potNames b) s)
    (hacc : ∀ n ∈ potNames p, alookup n acc = none) :
    (1 < p.2.length →
      (∀ q ∈ p.2, alookup (sfxName p.1 q.1) (s.foldl (stepEntry nsS) acc) = some q.2) ∧
      alookup (bareName p.1) (s.foldl (stepEntry nsS) acc) = none) ∧
    (∀ q, p.2 = [q] →
      alookup (bareName p.1) (s.foldl (stepEntry nsS) acc) = some q.2 ∧
      (∀ w ∈ p.2, alookup (sfxName p.1 w.1) (s.foldl (stepEntry nsS) acc) = none)) := by
  induction s generalizing acc with
  | nil => simp at hp
  | cons a t ih =>
    rw [List.foldl_cons]
    have hda := (List.pairwise_cons.mp hdisj).1
    have hdt := (List.pairwise_cons.mp hdisj).2
    rcases List.mem_cons.mp hp with heq | hpt
    · subst heq
      have hframe : ∀ n ∈ potNames p,
          alookup n (t.foldl (stepEntry nsS) (stepEntry nsS acc p)) =
            alookup n (stepEntry nsS acc p) := by
        intro n hn
        apply foldl_stepEntry_frame
        intro b hb hbm hmem
        exact hda b hb hm hbm n hn (exposure_names_sub b hmem)
      have hstep : stepEntry nsS acc p =
          (exposurePairs p).foldl (fun d q => ainsert q.1 q.2 d) acc := by
        unfold stepEntry
        rw [if_pos hm]
      constructor
      · intro hlen
        have hpairs : exposurePairs p = p.2.map (fun q => (sfxName p.1 q.1, q.2)) := by
          unfold exposurePairs
          rw [if_pos hlen]
        have hndk : (p.2.map (fun q => sfxName p.1 q.1)).Nodup :=
          (List.nodup_cons.mp hnd).2
        have hbns : bareName p.1 ∉ p.2.map (fun q => sfxName p.1 q.1) :=
          (List.nodup_cons.mp hnd).1
        constructor
        · intro q hq
          rw [hframe _ (List.mem_cons_of_mem _ (List.mem_map.mpr ⟨q, hq, rfl⟩)),
            hstep, hpairs]
          apply alookup_foldl_ainsert_of_mem
          · rw [List.map_map]
            exact hndk
          · exact List.mem_map.mpr ⟨q, hq, rfl⟩
        · rw [hframe _ (List.mem_cons_self _ _), hstep, hpairs,
            alookup_foldl_ainsert_of_not_mem]
          · exact hacc _ (List.mem_cons_self _ _)
          · rw [List.map_map]
            exact hbns
      · intro q hq
        have hpairs : exposurePairs p = [(bareName p.1, q.2)] := by
          unfold exposurePairs
          rw [hq]
          simp
        constructor
        · rw [hframe _ (List.mem_cons_self _ _), hstep, hpairs]
          simp [alookup_ainsert_self]
        · intro w hw
          rw [hq] at hw
          have hwq : w = q := List.mem_singleton.mp hw
          rw [hwq]
          have hqmem : q ∈ p.2 := by
            rw [hq]
            exact List.mem_singleton.mpr rfl
          have hsfx_mem : sfxName p.1 q.1 ∈ potNames p :=
            List.mem_cons_of_mem _ (List.mem_map.mpr ⟨q, hqmem, rfl⟩)
          have hne_bare : sfxName p.1 q.1 ≠ bareName p.1 := by
            intro he
            apply (List.nodup_cons.mp hnd).1
            rw [← he]
            exact List.mem_map.mpr ⟨q, hqmem, rfl⟩
          rw [hframe _ hsfx_mem, hstep, hpairs]
          rw [show ([(bareName p.1, q.2)] : List (String × α)).foldl
              (fun d q => ainsert q.1 q.2 d) acc = ainsert (bareName p.1) q.2 acc from rfl]
          rw [alookup_ainsert_ne hne_bare]
          exact hacc _ hsfx_mem
    · have hacc2 : ∀ n ∈ potNames p, alookup n (stepEntry nsS acc a) = none := by
        intro n hn
        unfold stepEntry
        by_cases ham : nsDepthMatch nsS a.1 = true
        · rw [if_pos ham, alookup_foldl_ainsert_of_not_mem]
          · exact hacc n hn
          · intro hmem
            exact hda p hpt ham hm n (exposure_names_sub a hmem) hn
        · rw [if_neg ham]
          exact hacc n hn
      exact ih _ hpt hdt hacc2

/-- Claim C4 (amended): with plugin discovery disabled, `Registry.get_all`
includes exactly the entries one component deeper than the handle's namespace
(every binding of the result stems from such an entry), and — provided the bare
and version-suffixed names of distinct leaves at this depth never collide — a
leaf with more than one version appears under `"<name>.v<version>"` for each
version with its bare name absent, while a leaf with exactly one version
appears under its bare name only.  (When exposure names collide, the
most recently registered entry's value wins; see the counterexample.) -/
theorem C4_get_all_exposure {α : Type} (r : Registry) (eps : List (String × α))
    (s : Store α) (hep : r.entry_points = false)
    (hne : ∀ p ∈ s, nsDepthMatch r.namespc p.1 = true → p.2 ≠ [])
    (hnd : ∀ p ∈ s, nsDepthMatch r.namespc p.1 = true → (potNames p).Nodup)
    (hdisj : List.Pairwise (fun a b => nsDepthMatch r.namespc a.1 = true →
      nsDepthMatch r.namespc b.1 = true → ∀ n ∈ potNames a, n ∉ potNames b) s) :
    ∃ d, Registry.get_all r eps s = some d ∧
      (∀ nm v, alookup nm d = some v →
        ∃ p, p ∈ s ∧ nsDepthMatch r.namespc p.1 = true ∧ (nm, v) ∈ exposurePairs p) ∧
      (∀ p, p ∈ s → nsDepthMatch r.namespc p.1 = true →
        (1 < p.2.length →
          (∀ q ∈ p.2, alookup (sfxName p.1 q.1) d = some q.2) ∧
          alookup (bareName p.1) d = none) ∧
        (∀ q, p.2 = [q] →
          alookup (bareName p.1) d = some q.2 ∧
          (∀ w ∈ p.2, alookup (sfxName p.1 w.1) d = none))) := by
  refine ⟨s.foldl (stepEntry r.namespc) [], ?_, ?_, ?_⟩
  · unfold Registry.get_all
    rw [hep]
    exact get_all_loop_eq _ _ _ hne
  · intro nm v hv
    rcases foldl_stepEntry_eq_some _ _ _ hv with h | h
    · exact h
    · simp [alookup] at h
  · intro p hp hm
    exact foldl_stepEntry_entry r.namespc s [] p hp hm (hnd p hp hm) hdisj
      (fun n _ => rfl)

theorem C4_counterexample :
    Registry.get_all (⟨["a"], false⟩ : Registry) ([] : List (String × Nat))
        [(strKey ["a", "foo"], [(1, 10), (2, 20)]), (strKey ["a", "foo.v2"], [(1, 30)])] =
      some [("foo.v1", 10), ("foo.v2", 30)] ∧
    alookup "foo.v2" [("foo.v1", 10), ("foo.v2", 30)] = some 30 ∧
    ¬ alookup "foo.v2" [("foo.v1", 10), ("foo.v2", 30)] = some (20 : Nat) := by
  refine ⟨by decide, by decide, by decide⟩

theorem C4_witness :
    alookup "x.v1" ((Registry.get_all (⟨["a"], false⟩ : Registry)
      ([] : List (String × Nat))
      [(strKey ["a", "x"], [(1, 10), (2, 20)]), (strKey ["a", "y"], [(1, 30)]),
        (strKey ["a", "z", "w"], [(1, 99)])]).getD []) = some 10 ∧
    alookup "x.v2" ((Registry.get_all (⟨["a"], false⟩ : Registry)
      ([] : List (String × Nat))
      [(strKey ["a", "x"], [(1, 10), (2, 20)]), (strKey ["a", "y"], [(1, 30)]),
        (strKey ["a", "z", "w"], [(1, 99)])]).getD []) = some 20 ∧
    alookup "x" ((Registry.get_all (⟨["a"], false⟩ : Registry)
      ([] : List (String × Nat))
      [(strKey ["a", "x"], [(1, 10), (2, 20)]), (strKey ["a", "y"], [(1, 30)]),
        (strKey ["a", "z", "w"], [(1, 99)])]).getD []) = none ∧
    alookup "y" ((Registry.get_all (⟨["a"], false⟩ : Registry)
      ([] : List (String × Nat))
      [(strKey ["a", "x"], [(1, 10), (2, 20)]), (strKey ["a", "y"], [(1, 30)]),
        (strKey ["a", "z", "w"], [(1, 99)])]).getD []) = some 30 ∧
    alookup "y.v1" ((Registry.get_all (⟨["a"], false⟩ : Registry)
      ([] : List (String × Nat))
      [(strKey ["a", "x"], [(1, 10), (2, 20)]), (strKey ["a", "y"], [(1, 30)]),
        (strKey ["a", "z", "w"], [(1, 99)])]).getD []) = none := by
  obtain ⟨d, hd, _, hmain⟩ := C4_get_all_exposure (⟨["a"], false⟩ : Registry)
    ([] : List (String × Nat))
    [(strKey ["a", "x"], [(1, 10), (2, 20)]), (strKey ["a", "y"], [(1, 30)]),
      (strKey ["a", "z", "w"], [(1, 99)])] rfl (by decide) (by decide) (by decide)
  rw [hd]
  obtain ⟨hx, hbx⟩ := (hmain (strKey ["a", "x"], [(1, 10), (2, 20)])
    (by decide) (by decide)).1 (by decide)
  obtain ⟨hy, hys⟩ := (hmain (strKey ["a", "y"], [(1, 30)])
    (by decide) (by decide)).2 (1, 30) rfl
  refine ⟨?_, ?_, ?_, ?_, ?_⟩
  · exact hx (1, 10) (by decide)
  · exact hx (2, 20) (by decide)
  · exact hbx
  · exact hy
  · exact hys (1, 30) (by decide)

theorem sortStrings_sorted (l : List String) :
    List.Sorted (fun a b => a ≤ b) (sortStrings l) :=
  List.sorted_mergeSort' l

theorem sortStrings_perm (l : List String) : (sortStrings l).Perm l :=
  List.mergeSort_perm l _

/-- Claim C8: with plugin discovery disabled, handle-level `get` on a name
whose full key is absent fails with `RegistryError` (NotFound) whose message
contains the handle's namespace (components joined by `" -> "`) and the
alphabetically sorted list of the names currently available in the namespace
(joined by `", "`), or the marker `"none"` when that joined string is empty —
in particular when no names are available. -/
theorem C8_get_notfound_message {α : Type} (r : Registry) (eps : List (String × α))
    (s : Store α) (name : String) (version : Option Int) (bare : String) (ver : Int)
    (hep : r.entry_points = false)
    (hparse : (match version with
      | none => _parse_version name
      | some v => (name, v)) = (bare, ver))
    (hne : ∀ p ∈ s, nsDepthMatch r.namespc p.1 = true → p.2 ≠ [])
    (habs : alookup (strKey r.namespc ++ [PyObj.str bare]) s = none) :
    ∃ d, Registry.get_all r eps s = some d ∧
      Registry.get r eps s name version =
        .error (.registryError (getErrMsg r bare d)) ∧
      (∃ x y, getErrMsg r bare d = x ++ " -> ".intercalate r.namespc ++ y) ∧
      (∃ names, names.Perm (d.map Prod.fst) ∧ List.Sorted (fun a b => a ≤ b) names ∧
        ((", ".intercalate names ≠ "" ∧
          ∃ x, getErrMsg r bare d = x ++ ", ".intercalate names) ∨
         (", ".intercalate names = "" ∧
          ∃ x, getErrMsg r bare d = x ++ "none"))) := by
  have hd : Registry.get_all r eps s = some (s.foldl (stepEntry r.namespc) []) := by
    unfold Registry.get_all
    rw [hep]
    exact get_all_loop_eq _ _ _ hne
  refine ⟨_, hd, ?_, ?_, ?_⟩
  · simp only [Registry.get, hparse, hep, Bool.false_eq_true, if_false, check_exists,
      habs, Option.isSome_none, hd]
  · refine ⟨"Cant\x27t find \x27" ++ bare ++ "\x27 in registry ",
      ". Available names: " ++ availStr ((s.foldl (stepEntry r.namespc) []).map Prod.fst),
      ?_⟩
    apply str_ext
    simp [getErrMsg, str_data_append, List.append_assoc]
  · refine ⟨sortStrings ((s.foldl (stepEntry r.namespc) []).map Prod.fst),
      sortStrings_perm _, sortStrings_sorted _, ?_⟩
    by_cases hj : ", ".intercalate
        (sortStrings ((s.foldl (stepEntry r.namespc) []).map Prod.fst)) = ""
    · refine Or.inr ⟨hj, "Cant\x27t find \x27" ++ bare ++ "\x27 in registry " ++
        " -> ".intercalate r.namespc ++ ". Available names: ", ?_⟩
      apply str_ext
      simp [getErrMsg, availStr, hj, str_data_append, List.append_assoc]
    · refine Or.inl ⟨hj, "Cant\x27t find \x27" ++ bare ++ "\x27 in registry " ++
        " -> ".intercalate r.namespc ++ ". Available names: ", ?_⟩
      apply str_ext
      simp [getErrMsg, availStr, hj, str_data_append, List.append_assoc]

theorem C8_witness :
    Registry.get (⟨["reg"], false⟩ : Registry) ([] : List (String × Nat))
        [(strKey ["reg", "alpha"], [(1, 3)])] "zzz" none =
      .error (.registryError
        "Cant\x27t find \x27zzz\x27 in registry reg. Available names: alpha") := by
  obtain ⟨d, hd, hget, _, _⟩ := C8_get_notfound_message (⟨["reg"], false⟩ : Registry)
    ([] : List (String × Nat)) [(strKey ["reg", "alpha"], [(1, 3)])] "zzz" none "zzz" 1
    rfl (by decide) (by decide) rfl
  have hde : d = [("alpha", 3)] := by
    have e : Registry.get_all (⟨["reg"], false⟩ : Registry) ([] : List (String × Nat))
        [(strKey ["reg", "alpha"], [(1, 3)])] = some [("alpha", 3)] := by decide
    rw [hd] at e
    exact Option.some.inj e
  rw [hde] at hget
  have em : getErrMsg (⟨["reg"], false⟩ : Registry) "zzz" [(("alpha" : String), (3 : Nat))] =
      "Cant\x27t find \x27zzz\x27 in registry reg. Available names: alpha" := by
    simp only [getErrMsg, availStr, sortStrings, List.map_cons, List.map_nil,
      List.mergeSort_singleton]
    decide
  rw [em] at hget
  exact hget

